import Mathlib

/-!
Shallow embedding of the MetaNK benchmark-instance generator
(src/ProblemClassGenerator.py, with src/MetaNK.py as the older identical copy).

Randomness is modelled abstractly:
* `random.sample(population, k)` becomes an abstract sampler
  `s : List Nat -> Nat -> Option (List Nat)` constrained by `SamplerSpec`:
  it succeeds exactly when `k` is at most the population size (Python raises
  `ValueError` otherwise, modelled by `none`), returning `k` elements of the
  population, pairwise distinct whenever the population is duplicate free.
* `random.choice(options)` becomes indexing by an arbitrary index stream.
* `random.randint(a, b)` becomes `a + r % (b - a + 1)` for an arbitrary draw `r`.
* the per-cell value generators become arbitrary value streams `Nat -> A`.

A list comprehension whose body may raise (because it calls `random.sample`)
is modelled by `optList`, which collects the results and propagates the first
failure, exactly as the exception aborts the whole comprehension.
-/

/-- Success contract of `random.sample`: `k` results, all from the population,
duplicate free whenever the population is. -/
def SamplerSpec (s : List Nat → Nat → Option (List Nat)) : Prop :=
  ∀ pool k,
    (k ≤ pool.length →
      ∃ res, s pool k = some res ∧ res.length = k ∧ (∀ x ∈ res, x ∈ pool) ∧
        (pool.Nodup → res.Nodup)) ∧
    (pool.length < k → s pool k = none)

/-- A concrete sampler used to evaluate the model on explicit inputs: it takes
the first `k` elements of the population. -/
def takeSampler (pool : List Nat) (k : Nat) : Option (List Nat) :=
  if k ≤ pool.length then some (pool.take k) else none

/-- Collect the results of a fallible comprehension; any failure aborts. -/
def optList {α : Type} : List (Option α) → Option (List α)
  | [] => some []
  | none :: _ => none
  | some a :: rest => (optList rest).map (fun l => a :: l)

/-! ## Linkage models (`NearestNeighbor`, `Unrestricted`, `Separable`, `Mesh`, `SAT_like`) -/

/-- `NearestNeighbor(N, K)`: row `i` is `[j % N for j in range(i, i + K + 1)]`. -/
def NearestNeighbor (N K : Nat) : List (List Nat) :=
  (List.range N).map (fun i => (List.range' i (K + 1)).map (fun j => j % N))

/-- `Unrestricted(N, K)`: row `i` is `[i] + random.sample(set(range(N)) - set([i]), K)`. -/
def Unrestricted (s : List Nat → Nat → Option (List Nat)) (N K : Nat) :
    Option (List (List Nat)) :=
  optList ((List.range N).map (fun i =>
    (s ((List.range N).filter (fun x => decide (x ≠ i))) K).map (fun others => i :: others)))

/-- Step size of the `chunks` helper inside `Separable`:
`size + 1 if (len(data) - start) % size else size`, where `len` here is the
length of the not yet consumed suffix. -/
def chunk_step (len size : Nat) : Nat :=
  if len % size ≠ 0 then size + 1 else size

/-- The `chunks` generator of `Separable`, with an explicit fuel argument so the
recursion is structural; each step consumes at least one element, so fuel
`data.length` (as used by `chunks`) reproduces the source loop exactly. -/
def chunksAux (size : Nat) : Nat → List Nat → List (List Nat)
  | 0, _ => []
  | _, [] => []
  | fuel + 1, d :: ds =>
      (d :: ds).take (chunk_step (d :: ds).length size) ::
        chunksAux size fuel ((d :: ds).drop (chunk_step (d :: ds).length size))

/-- `chunks(data, size)` from `Separable`. -/
def chunks (data : List Nat) (size : Nat) : List (List Nat) :=
  chunksAux size data.length data

/-- `Separable(N, K)`: split `range(N)` into blocks by `chunks(options, 2 * K)`;
each member `i` of a block forms the row
`[i] + random.sample(set(chunk) - set([i]), min(K, len(chunk) - 1))`,
and the per-block row lists are concatenated. -/
def Separable (s : List Nat → Nat → Option (List Nat)) (N K : Nat) :
    Option (List (List Nat)) :=
  (optList ((chunks (List.range N) (2 * K)).map (fun chunk =>
    optList (chunk.map (fun i =>
      (s (chunk.filter (fun x => decide (x ≠ i))) (min K (chunk.length - 1))).map
        (fun others => i :: others)))))).map List.flatten

/-- Axis width of `Mesh`: the source computes `int(math.ceil(N ** (1 / (K + 1.0))))`,
i.e. the smallest `w` with `w ^ (K + 1) ≥ N`; modelled exactly (the search below
always succeeds at `w = N` or earlier, so `findIdx` returns that least `w`). -/
def mesh_width (N K : Nat) : Nat :=
  (List.range (N + 1)).findIdx (fun w => decide (N ≤ w ^ (K + 1)))

/-- `to_coordinates` of `Mesh`: repeatedly take `value % width` then divide,
`K + 1` times (first argument is the number of remaining dimensions). -/
def to_coordinates (width : Nat) : Nat → Nat → List Nat
  | 0, _ => []
  | dims + 1, value => value % width :: to_coordinates width dims (value / width)

/-- `from_coordinates` of `Mesh`: `for c in reversed(coord): value = value * width + c`. -/
def from_coordinates (width : Nat) (coord : List Nat) : Nat :=
  coord.reverse.foldl (fun value c => value * width + c) 0

/-- One edge row of `Mesh`: bump the given dimension of `coord`; if the bumped
coordinate reaches the axis width, or the re-encoded index reaches `N`,
wrap that coordinate to 0 and re-encode. -/
def mesh_edge (N width : Nat) (coord : List Nat) (i dimension : Nat) : List Nat :=
  let neighbor_coord := coord.set dimension (coord.getD dimension 0 + 1)
  let neighbor_index := from_coordinates width neighbor_coord
  if N ≤ neighbor_index ∨ width ≤ neighbor_coord.getD dimension 0 then
    [i, from_coordinates width (neighbor_coord.set dimension 0)]
  else
    [i, neighbor_index]

/-- `Mesh(N, K)`: for every vertex `i < N` and every dimension `d ≤ K`, one edge
row `[i, neighbor]` (the source computes `coord` once per vertex; recomputing it
per edge, as here, is the same pure value). -/
def Mesh (N K : Nat) : List (List Nat) :=
  (List.range N).flatMap (fun i =>
    (List.range (K + 1)).map
      (mesh_edge N (mesh_width N K) (to_coordinates (mesh_width N K) (K + 1) i) i))

/-- The IEEE 754 binary64 constant written `4.27` in the source, scaled by
`2 ^ 50`: the exact scaled value is `4.27 * 2 ^ 50 = 4807592602218004.48`,
which rounds to the nearest double `4807592602218004 / 2 ^ 50`. -/
def double427_num : Nat := 4807592602218004

/-- Round `a / 2 ^ t` to the nearest integer, ties to even — the IEEE 754
rounding of a positive significand once its `t` lowest bits are dropped. -/
def round_half_even (a t : Nat) : Nat :=
  if 2 * (a % 2 ^ t) < 2 ^ t then a / 2 ^ t
  else if 2 ^ t < 2 * (a % 2 ^ t) then a / 2 ^ t + 1
  else if a / 2 ^ t % 2 = 0 then a / 2 ^ t else a / 2 ^ t + 1

/-- Binary digit count, written with structural fuel so the kernel can
evaluate it; `bitLen` passes fuel 1100, which is exact for every number below
`2 ^ 1100` — far beyond both the exact int-to-float conversion domain
(`N < 2 ^ 53`) and the binary64 overflow threshold. -/
def bitLenAux : Nat → Nat → Nat
  | 0, _ => 0
  | fuel + 1, n => if n = 0 then 0 else bitLenAux fuel (n / 2) + 1

/-- Number of binary digits of `n` (0 for 0). -/
def bitLen (n : Nat) : Nat := bitLenAux 1100 n

/-- The IEEE binary64 product `4.27 * N`, scaled by `2 ^ 50`: the exact scaled
product `double427_num * N` is rounded to 53 significant bits, ties to even. -/
def fl_prod (N : Nat) : Nat :=
  round_half_even (double427_num * N) (bitLen (double427_num * N) - 53) *
    2 ^ (bitLen (double427_num * N) - 53)

/-- Row count of `SAT_like`: the source writes `int(4.27 * N)`, the truncation
of the IEEE binary64 product, modelled bit-exactly here as `fl_prod N / 2 ^ 50`
(for `N < 2 ^ 53`, where converting `N` to float is itself exact).  On the
orchestrator range `N ≤ 300` this equals the exact truncation `427 * N / 100`
except at `N = 100, 200, 300`, where the product rounds just below the exact
integer `4.27 * N` and one fewer row is produced (426, 853, 1280). -/
def sat_row_count (N : Nat) : Nat :=
  fl_prod N / 2 ^ 50

/-- `SAT_like(N, K)`: `int(4.27 * N)` rows, each `random.sample(range(N), K + 1)`. -/
def SAT_like (s : List Nat → Nat → Option (List Nat)) (N K : Nat) :
    Option (List (List Nat)) :=
  optList ((List.range (sat_row_count N)).map (fun _ => s (List.range N) (K + 1)))

/-! ## Rearrangement -/

/-- `Scatter(N, epistasis)` relabels every index through a shuffled ordering;
the shuffle itself is the abstract `ordering` argument. -/
def Scatter (ordering : List Nat) (epistasis : List (List Nat)) : List (List Nat) :=
  epistasis.map (fun group => group.map (fun x => ordering.getD x 0))

/-- `NoChange(N, epistasis)` returns the adjacency unchanged. -/
def NoChange (epistasis : List (List Nat)) : List (List Nat) :=
  epistasis

/-! ## Value cardinality strategies and instance assembly -/

/-- The two-element option pool built once by `TwoValues`: `[RNG(), RNG()]`. -/
def TwoValues_options {α : Type} (rngStream : Nat → α) : List α :=
  [rngStream 0, rngStream 1]

/-- The `2 ^ variables_per_row` option pool built once by `PowKValues`. -/
def PowKValues_options {α : Type} (rngStream : Nat → α) (variables_per_row : Nat) : List α :=
  (List.range (2 ^ variables_per_row)).map rngStream

/-- A cell filler that models `random.choice(options)`: the `n`-th call picks
the element at the `n`-th drawn index (reduced mod the pool size). -/
def cardinality_cell {α : Type} (options : List α) (d : α) (idxStream : Nat → Nat) :
    Nat → α :=
  fun n => options.getD (idxStream n % options.length) d

/-- The ValueTable built by `Create_Instance`:
`[[rng() for _ in range(1 << variables_per_row)] for _ in range(rows)]` with
`variables_per_row = len(adjacency[0])`; `cell` is the stream of values produced
by the successive `rng()` calls. -/
def Create_Instance_table {α : Type} (adjacency : List (List Nat)) (cell : Nat → α) :
    List (List α) :=
  (List.range adjacency.length).map (fun r =>
    (List.range (2 ^ (adjacency.headD []).length)).map
      (fun c => cell (r * 2 ^ (adjacency.headD []).length + c)))

/-- The four numeric header fields written by `Create_Instance`:
`N`, `2 * N * N // eval_const`, `len(adjacency[0])`, `len(adjacency)`. -/
def Create_Instance_header (N eval_const : Nat) (adjacency : List (List Nat)) :
    Nat × Nat × Nat × Nat :=
  (N, 2 * N * N / eval_const, (adjacency.headD []).length, adjacency.length)

/-! ## Class selection (`Create_Class`) -/

/-- Tags for the five entries of the `linkages` list. -/
inductive LinkageKind : Type
  | NearestNeighbor
  | Unrestricted
  | Separable
  | Mesh
  | SAT_like

/-- Tags for the two entries of the `rearrangement` list. -/
inductive RearrangementKind : Type
  | Scatter
  | NoChange

/-- Tags for the three entries of the `rngs` list. -/
inductive DistributionKind : Type
  | Uniform
  | Normal
  | Scaled

/-- Tags for the three entries of the `value_count` list. -/
inductive CardinalityKind : Type
  | TwoValues
  | PowKValues
  | AllUnique

/-- The `linkages` list of the source. -/
def linkages : List LinkageKind :=
  [LinkageKind.NearestNeighbor, LinkageKind.Unrestricted, LinkageKind.Separable,
    LinkageKind.Mesh, LinkageKind.SAT_like]

/-- The `rearrangement` list of the source. -/
def rearrangement : List RearrangementKind :=
  [RearrangementKind.Scatter, RearrangementKind.NoChange]

/-- The `rngs` list of the source. -/
def rngs : List DistributionKind :=
  [DistributionKind.Uniform, DistributionKind.Normal, DistributionKind.Scaled]

/-- The `value_count` list of the source. -/
def value_count : List CardinalityKind :=
  [CardinalityKind.TwoValues, CardinalityKind.PowKValues, CardinalityKind.AllUnique]

/-- `random.randint(a, b)` (both ends inclusive) driven by an arbitrary draw. -/
def randint (a b r : Nat) : Nat :=
  a + r % (b - a + 1)

/-- `random.choice(l)` driven by an arbitrary draw. -/
def rand_choice {α : Type} (l : List α) (d : α) (r : Nat) : α :=
  l.getD (r % l.length) d

/-- The tuple returned by `Create_Class`:
`(N, K, eval_const, epistasis, arrangement, number_maker, value_levels)`. -/
structure ProblemClass : Type where
  N : Nat
  K : Nat
  eval_const : Nat
  epistasis : LinkageKind
  arrangement : RearrangementKind
  number_maker : DistributionKind
  value_levels : CardinalityKind

/-- `Create_Class()`: each field drawn independently, `N = randint(50, 300)`,
`eval_const = choice([1, 4, 16])`, `K = randint(1, 5)`; the seven abstract
draws `r1 .. r7` stand for the successive consumptions of the random stream. -/
def Create_Class (r1 r2 r3 r4 r5 r6 r7 : Nat) : ProblemClass :=
  ⟨randint 50 300 r5, randint 1 5 r7, rand_choice [1, 4, 16] 1 r6,
    rand_choice linkages LinkageKind.NearestNeighbor r1,
    rand_choice rearrangement RearrangementKind.Scatter r2,
    rand_choice rngs DistributionKind.Uniform r3,
    rand_choice value_count CardinalityKind.TwoValues r4⟩

/-! ## Helper lemmas -/

theorem takeSampler_spec : SamplerSpec takeSampler := by
  intro pool k
  refine ⟨fun hk => ⟨pool.take k, ?_, ?_, ?_, ?_⟩, fun hk => ?_⟩
  · simp [takeSampler, hk]
  · simp [List.length_take]; omega
  · intro x hx
    exact (List.take_sublist k pool).subset hx
  · intro hnd
    exact List.Nodup.sublist (List.take_sublist k pool) hnd
  · simp only [takeSampler, if_neg (by omega : ¬ k ≤ pool.length)]

theorem optList_map_some {α β : Type} (f : α → Option β) (P : β → Prop) :
    ∀ l : List α, (∀ x ∈ l, ∃ y, f x = some y ∧ P y) →
      ∃ r, optList (l.map f) = some r ∧ r.length = l.length ∧ ∀ y ∈ r, P y := by
  intro l
  induction l with
  | nil =>
      intro _
      exact ⟨[], rfl, rfl, by simp⟩
  | cons a t ih =>
      intro h
      obtain ⟨y, hy, hPy⟩ := h a (by simp)
      obtain ⟨r, hr, hlen, hP⟩ := ih (fun x hx => h x (by simp [hx]))
      refine ⟨y :: r, ?_, by simp [hlen], ?_⟩
      · simp [optList, hy, hr]
      · intro z hz
        rcases List.mem_cons.mp hz with h1 | h1
        · exact h1 ▸ hPy
        · exact hP z h1

theorem optList_map_none {α β : Type} (f : α → Option β) {x : α} :
    ∀ l : List α, x ∈ l → f x = none → optList (l.map f) = none := by
  intro l
  induction l with
  | nil =>
      intro hx
      exact absurd hx (List.not_mem_nil x)
  | cons a t ih =>
      intro hx hf
      rcases List.mem_cons.mp hx with h1 | h1
      · subst h1
        simp [optList, hf]
      · cases ha : f a with
        | none => simp [optList, ha]
        | some b => simp [optList, ha, ih h1 hf]

theorem filter_ne_of_not_mem {a : Nat} :
    ∀ {l : List Nat}, a ∉ l → l.filter (fun x => decide (x ≠ a)) = l := by
  intro l
  induction l with
  | nil =>
      intro _
      rfl
  | cons b t ih =>
      intro h
      have hb : b ≠ a := fun e => h (by simp [e])
      have hta : a ∉ t := fun ht => h (List.mem_cons_of_mem b ht)
      rw [List.filter_cons, if_pos (by simp [hb] : decide (b ≠ a) = true), ih hta]

theorem length_filter_ne {a : Nat} :
    ∀ {l : List Nat}, l.Nodup → a ∈ l →
      (l.filter (fun x => decide (x ≠ a))).length = l.length - 1 := by
  intro l
  induction l with
  | nil =>
      intro _ h
      exact absurd h (List.not_mem_nil a)
  | cons b t ih =>
      intro hnd ha
      rcases List.mem_cons.mp ha with h1 | h1
      · have hat : a ∉ t := h1 ▸ (List.nodup_cons.mp hnd).1
        rw [List.filter_cons, if_neg (by simp [h1] : ¬ decide (b ≠ a) = true),
          filter_ne_of_not_mem hat]
        simp
      · have hb : b ≠ a := by
          intro e
          exact (List.nodup_cons.mp hnd).1 (e ▸ h1)
        have ht : 1 ≤ t.length := List.length_pos.mpr (List.ne_nil_of_mem h1)
        have hrec := ih (List.nodup_cons.mp hnd).2 h1
        rw [List.filter_cons, if_pos (by simp [hb] : decide (b ≠ a) = true)]
        simp only [List.length_cons, hrec]
        omega

theorem chunksAux_sublist (size : Nat) :
    ∀ (fuel : Nat) (data : List Nat), ∀ c ∈ chunksAux size fuel data, c.Sublist data := by
  intro fuel
  induction fuel with
  | zero =>
      intro data c hc
      simp [chunksAux] at hc
  | succ n ih =>
      intro data c hc
      cases data with
      | nil => simp [chunksAux] at hc
      | cons d ds =>
          simp only [chunksAux] at hc
          rcases List.mem_cons.mp hc with h1 | h1
          · exact h1 ▸ List.take_sublist _ _
          · exact (ih _ c h1).trans (List.drop_sublist _ _)

theorem chunks_sublist (data : List Nat) (size : Nat) :
    ∀ c ∈ chunks data size, c.Sublist data :=
  chunksAux_sublist size data.length data

theorem chunks_nodup {data : List Nat} (hnd : data.Nodup) (size : Nat) :
    ∀ c ∈ chunks data size, c.Nodup :=
  fun c hc => List.Nodup.sublist (chunks_sublist data size c hc) hnd

theorem length_flatMap_const {α β : Type} (l : List α) (f : α → List β) (m : Nat)
    (h : ∀ i ∈ l, (f i).length = m) : (l.flatMap f).length = l.length * m := by
  induction l with
  | nil => simp
  | cons a t ih =>
      simp only [List.flatMap_cons, List.length_append, List.length_cons]
      rw [h a (by simp), ih (fun i hi => h i (by simp [hi]))]
      ring

theorem mesh_edge_length (N width : Nat) (coord : List Nat) (i dimension : Nat) :
    (mesh_edge N width coord i dimension).length = 2 := by
  dsimp only [mesh_edge]
  split <;> rfl

theorem natDiv_cast_floor (a b : Nat) (hb : 0 < b) :
    ((a / b : Nat) : Int) = Int.floor ((a : ℚ) / (b : ℚ)) := by
  have hbq : (0 : ℚ) < (b : ℚ) := by exact_mod_cast hb
  symm
  rw [Int.floor_eq_iff]
  constructor
  · rw [le_div_iff₀ hbq]
    exact_mod_cast Nat.div_mul_le_self a b
  · rw [div_lt_iff₀ hbq]
    have hnat : a < (a / b + 1) * b := by
      calc a = b * (a / b) + a % b := (Nat.div_add_mod a b).symm
        _ < b * (a / b) + b := by
            have := Nat.mod_lt a hb
            omega
        _ = (a / b + 1) * b := by ring
    exact_mod_cast hnat

theorem round_half_even_ge (a t : Nat) : a / 2 ^ t ≤ round_half_even a t := by
  rw [round_half_even]
  split_ifs <;> omega

theorem bitLenAux_zero (fuel : Nat) : bitLenAux fuel 0 = 0 := by
  cases fuel <;> rfl

theorem bitLenAux_lower : ∀ fuel n : Nat, 1 ≤ n → 2 ^ (bitLenAux fuel n - 1) ≤ n := by
  intro fuel
  induction fuel with
  | zero =>
      intro n hn
      simpa [bitLenAux] using hn
  | succ f ih =>
      intro n hn
      simp only [bitLenAux]
      rw [if_neg (by omega : ¬ n = 0)]
      by_cases h2 : n / 2 = 0
      · rw [h2, bitLenAux_zero]
        simpa using hn
      · have hb := ih (n / 2) (by omega)
        rcases Nat.eq_zero_or_pos (bitLenAux f (n / 2)) with hb0 | hb1
        · rw [hb0]
          simpa using hn
        · have hpow : 2 ^ bitLenAux f (n / 2) = 2 * 2 ^ (bitLenAux f (n / 2) - 1) := by
            conv_lhs => rw [show bitLenAux f (n / 2) = bitLenAux f (n / 2) - 1 + 1 by omega]
            rw [pow_succ]
            ring
          simp only [Nat.add_sub_cancel]
          omega

theorem bitLen_lower (n : Nat) (hn : 1 ≤ n) : 2 ^ (bitLen n - 1) ≤ n :=
  bitLenAux_lower 1100 n hn

theorem sat_row_count_pos (N : Nat) (hN : 1 ≤ N) : 0 < sat_row_count N := by
  have h2d : (2 : Nat) ^ 52 ≤ double427_num := by norm_num [double427_num]
  have h52 : 2 ^ 52 ≤ double427_num * N := by
    calc (2 : Nat) ^ 52 ≤ double427_num := h2d
      _ = double427_num * 1 := by ring
      _ ≤ double427_num * N := Nat.mul_le_mul le_rfl hN
  have hp1 : 1 ≤ double427_num * N := le_trans (by norm_num) h52
  have hfl : 2 ^ 52 ≤ fl_prod N := by
    rw [fl_prod]
    by_cases hbig : 53 ≤ bitLen (double427_num * N)
    · have hlow := bitLen_lower (double427_num * N) hp1
      have hq : 2 ^ 52 ≤ double427_num * N / 2 ^ (bitLen (double427_num * N) - 53) := by
        rw [Nat.le_div_iff_mul_le (pow_pos (by norm_num : (0 : Nat) < 2) _)]
        calc 2 ^ 52 * 2 ^ (bitLen (double427_num * N) - 53)
            = 2 ^ (bitLen (double427_num * N) - 1) := by
              rw [← pow_add]
              congr 1
              omega
          _ ≤ double427_num * N := hlow
      calc (2 : Nat) ^ 52
          ≤ double427_num * N / 2 ^ (bitLen (double427_num * N) - 53) := hq
        _ ≤ round_half_even (double427_num * N) (bitLen (double427_num * N) - 53) :=
            round_half_even_ge _ _
        _ ≤ round_half_even (double427_num * N) (bitLen (double427_num * N) - 53) *
              2 ^ (bitLen (double427_num * N) - 53) :=
            Nat.le_mul_of_pos_right _ (pow_pos (by norm_num : (0 : Nat) < 2) _)
    · have ht : bitLen (double427_num * N) - 53 = 0 := by omega
      rw [ht]
      have hr := round_half_even_ge (double427_num * N) 0
      simp only [pow_zero, Nat.div_one, Nat.mul_one] at hr ⊢
      omega
  rw [sat_row_count]
  have hd : (2 : Nat) ^ 52 / 2 ^ 50 ≤ fl_prod N / 2 ^ 50 := Nat.div_le_div_right hfl
  have h4 : (2 : Nat) ^ 52 / 2 ^ 50 = 4 := by norm_num
  omega

theorem Unrestricted_some (s : List Nat → Nat → Option (List Nat)) (hs : SamplerSpec s)
    (N K : Nat) (h : K + 1 ≤ N) :
    ∃ adj, Unrestricted s N K = some adj ∧ adj.length = N ∧
      ∀ row ∈ adj, row.length = K + 1 ∧ row.Nodup ∧ ∀ x ∈ row, x < N := by
  have harg : ∀ i ∈ List.range N,
      ∃ row, (s ((List.range N).filter (fun x => decide (x ≠ i))) K).map
          (fun others => i :: others) = some row ∧
        row.length = K + 1 ∧ row.Nodup ∧ ∀ x ∈ row, x < N := by
    intro i hi
    have hiN : i < N := List.mem_range.mp hi
    have hpool : ((List.range N).filter (fun x => decide (x ≠ i))).length = N - 1 := by
      simpa using length_filter_ne (List.nodup_range N) (List.mem_range.mpr hiN)
    obtain ⟨res, hres, hreslen, hsub, hnd⟩ :=
      (hs ((List.range N).filter (fun x => decide (x ≠ i))) K).1 (by rw [hpool]; omega)
    refine ⟨i :: res, by rw [hres]; rfl, by simp [hreslen], ?_, ?_⟩
    · rw [List.nodup_cons]
      refine ⟨fun hmem => ?_, hnd ((List.nodup_range N).filter _)⟩
      have hm := hsub i hmem
      rw [List.mem_filter] at hm
      simp at hm
    · intro x hx
      rcases List.mem_cons.mp hx with h1 | h1
      · exact h1 ▸ hiN
      · have hm := hsub x h1
        rw [List.mem_filter] at hm
        exact List.mem_range.mp hm.1
  obtain ⟨adj, hadj, hlen, hP⟩ :=
    optList_map_some
      (fun i => (s ((List.range N).filter (fun x => decide (x ≠ i))) K).map
        (fun others => i :: others))
      (fun row => row.length = K + 1 ∧ row.Nodup ∧ ∀ x ∈ row, x < N)
      (List.range N) harg
  exact ⟨adj, hadj, by simpa using hlen, hP⟩

theorem SAT_some (s : List Nat → Nat → Option (List Nat)) (hs : SamplerSpec s)
    (N K : Nat) (h : K + 1 ≤ N) :
    ∃ adj, SAT_like s N K = some adj ∧ adj.length = sat_row_count N ∧
      ∀ row ∈ adj, row.length = K + 1 ∧ row.Nodup ∧ ∀ x ∈ row, x < N := by
  have harg : ∀ i ∈ List.range (sat_row_count N),
      ∃ row, s (List.range N) (K + 1) = some row ∧
        row.length = K + 1 ∧ row.Nodup ∧ ∀ x ∈ row, x < N := by
    intro i _
    obtain ⟨res, hres, hreslen, hsub, hnd⟩ := (hs (List.range N) (K + 1)).1 (by simpa using h)
    exact ⟨res, hres, hreslen, hnd (List.nodup_range N),
      fun x hx => List.mem_range.mp (hsub x hx)⟩
  obtain ⟨adj, hadj, hlen, hP⟩ :=
    optList_map_some (fun _ => s (List.range N) (K + 1))
      (fun row => row.length = K + 1 ∧ row.Nodup ∧ ∀ x ∈ row, x < N)
      (List.range (sat_row_count N)) harg
  exact ⟨adj, hadj, by simpa using hlen, hP⟩

theorem Separable_some (s : List Nat → Nat → Option (List Nat)) (hs : SamplerSpec s)
    (N K : Nat) :
    ∃ adj, Separable s N K = some adj ∧
      ∀ row ∈ adj, ∃ c ∈ chunks (List.range N) (2 * K),
        row.length = 1 + min K (c.length - 1) := by
  have harg : ∀ c ∈ chunks (List.range N) (2 * K),
      ∃ rows_c, optList (c.map (fun i =>
          (s (c.filter (fun x => decide (x ≠ i))) (min K (c.length - 1))).map
            (fun others => i :: others))) = some rows_c ∧
        ∀ row ∈ rows_c, ∃ d ∈ chunks (List.range N) (2 * K),
          row.length = 1 + min K (d.length - 1) := by
    intro c hc
    have hcnd : c.Nodup := chunks_nodup (List.nodup_range N) (2 * K) c hc
    have hinner : ∀ i ∈ c,
        ∃ row, (s (c.filter (fun x => decide (x ≠ i))) (min K (c.length - 1))).map
            (fun others => i :: others) = some row ∧
          row.length = 1 + min K (c.length - 1) := by
      intro i hi
      have hpool : (c.filter (fun x => decide (x ≠ i))).length = c.length - 1 :=
        length_filter_ne hcnd hi
      have hk : min K (c.length - 1) ≤ (c.filter (fun x => decide (x ≠ i))).length := by
        rw [hpool]
        omega
      obtain ⟨res, hres, hreslen, _, _⟩ :=
        (hs (c.filter (fun x => decide (x ≠ i))) (min K (c.length - 1))).1 hk
      exact ⟨i :: res, by rw [hres]; rfl, by simp [hreslen]; omega⟩
    obtain ⟨rows_c, hrows, _, hPc⟩ :=
      optList_map_some
        (fun i => (s (c.filter (fun x => decide (x ≠ i))) (min K (c.length - 1))).map
          (fun others => i :: others))
        (fun row => row.length = 1 + min K (c.length - 1))
        c hinner
    exact ⟨rows_c, hrows, fun row hr => ⟨c, hc, hPc row hr⟩⟩
  obtain ⟨parts, hparts, _, hP⟩ :=
    optList_map_some
      (fun c => optList (c.map (fun i =>
        (s (c.filter (fun x => decide (x ≠ i))) (min K (c.length - 1))).map
          (fun others => i :: others))))
      (fun rows_c => ∀ row ∈ rows_c, ∃ d ∈ chunks (List.range N) (2 * K),
        row.length = 1 + min K (d.length - 1))
      (chunks (List.range N) (2 * K)) harg
  refine ⟨parts.flatten, ?_, ?_⟩
  · rw [Separable, hparts]
    rfl
  · intro row hrow
    obtain ⟨rows_c, hmem, hrc⟩ := List.mem_flatten.mp hrow
    exact hP rows_c hmem row hrc

theorem Unrestricted_none (s : List Nat → Nat → Option (List Nat)) (hs : SamplerSpec s)
    (N K : Nat) (hN : 1 ≤ N) (hK : N ≤ K) : Unrestricted s N K = none := by
  rw [Unrestricted]
  apply optList_map_none _ (List.range N) (List.mem_range.mpr (by omega : 0 < N))
  have hpool : ((List.range N).filter (fun x => decide (x ≠ 0))).length = N - 1 := by
    simpa using length_filter_ne (List.nodup_range N) (List.mem_range.mpr (by omega : 0 < N))
  rw [(hs ((List.range N).filter (fun x => decide (x ≠ 0))) K).2 (by rw [hpool]; omega)]
  rfl

theorem SAT_none (s : List Nat → Nat → Option (List Nat)) (hs : SamplerSpec s)
    (N K : Nat) (hN : 1 ≤ N) (hK : N ≤ K) : SAT_like s N K = none := by
  rw [SAT_like]
  have hcount : 0 < sat_row_count N := sat_row_count_pos N hN
  apply optList_map_none _ (List.range (sat_row_count N)) (List.mem_range.mpr hcount)
  exact (hs (List.range N) (K + 1)).2
    (by simp only [List.length_range]; omega : (List.range N).length < K + 1)

theorem table_getD {α : Type} (adjacency : List (List Nat)) (cell : Nat → α)
    (i : Nat) (hi : i < adjacency.length) :
    (Create_Instance_table adjacency cell).getD i [] =
      (List.range (2 ^ (adjacency.headD []).length)).map
        (fun c => cell (i * 2 ^ (adjacency.headD []).length + c)) := by
  have hlen : i < (Create_Instance_table adjacency cell).length := by
    simpa [Create_Instance_table] using hi
  rw [List.getD_eq_getElem _ _ hlen]
  simp [Create_Instance_table]

theorem table_card_le {α : Type} [DecidableEq α] (adjacency : List (List Nat))
    (options : List α) (d : α) (idxStream : Nat → Nat) (hpos : 0 < options.length) :
    (Create_Instance_table adjacency
      (cardinality_cell options d idxStream)).flatten.toFinset.card ≤ options.length := by
  have hsub : (Create_Instance_table adjacency
      (cardinality_cell options d idxStream)).flatten.toFinset ⊆ options.toFinset := by
    intro x hx
    rw [List.mem_toFinset] at hx
    rw [List.mem_toFinset]
    obtain ⟨row, hrow, hxr⟩ := List.mem_flatten.mp hx
    obtain ⟨r, _, rfl⟩ := List.mem_map.mp hrow
    obtain ⟨c, _, rfl⟩ := List.mem_map.mp hxr
    have hidx : idxStream (r * 2 ^ (adjacency.headD []).length + c) % options.length <
        options.length := Nat.mod_lt _ hpos
    rw [cardinality_cell, List.getD_eq_getElem _ _ hidx]
    exact List.getElem_mem _
  calc (Create_Instance_table adjacency
        (cardinality_cell options d idxStream)).flatten.toFinset.card
      ≤ options.toFinset.card := Finset.card_le_card hsub
    _ ≤ options.length := options.toFinset_card_le

/-! ## Claim theorems -/

/-- Claim C1 (code bug evidence). The spec requires every Adjacency row to hold
pairwise distinct entries, and claim C1 asserts in particular that `Mesh` never
emits a row whose two entries are equal.  The code violates this: for `N = 3`,
`K = 1` (a valid input, `N ≥ 2`, `K ≥ 1`), vertex 2 has coordinates `[0, 1]`
with axis width 2; bumping axis 0 gives linear index 3 ≥ N, so the code wraps
that coordinate to 0, which lands back on vertex 2 itself and emits the
self-loop row `[2, 2]`. -/
theorem C1_mesh_self_loop : [2, 2] ∈ Mesh 3 1 ∧ ¬ ([2, 2] : List Nat).Nodup := by
  decide

/-- Claim C2 (counterexample). The claim says every `Separable` row has exactly
`K + 1` entries for all `N` and `K`.  At `N = 2`, `K = 2` the single block is
`[0, 1]`, so each row gets `1 + min(K, blockSize - 1) = 2` entries, not
`K + 1 = 3`: with the deterministic prefix sampler the adjacency is
`[[0, 1], [1, 0]]` and both row lengths are 2. -/
theorem C2_counterexample :
    (Separable takeSampler 2 2).map (fun adj => adj.map List.length) = some [2, 2] ∧
      (2 : Nat) ≠ 2 + 1 := by
  decide

/-- Claim C2 (amended). Every row of `NearestNeighbor`, and (when sampling is
feasible, `K + 1 ≤ N`) of `Unrestricted` and `SAT_like`, has exactly `K + 1`
entries; every `Separable` row arising from a block `c` has exactly
`1 + min(K, |c| - 1)` entries, which equals `K + 1` exactly on those inputs
where every block has at least `K + 1` members. -/
theorem C2_amended (s : List Nat → Nat → Option (List Nat)) (hs : SamplerSpec s)
    (N K : Nat) :
    (∀ row ∈ NearestNeighbor N K, row.length = K + 1) ∧
    (K + 1 ≤ N → ∃ adj, Unrestricted s N K = some adj ∧
      ∀ row ∈ adj, row.length = K + 1) ∧
    (K + 1 ≤ N → ∃ adj, SAT_like s N K = some adj ∧
      ∀ row ∈ adj, row.length = K + 1) ∧
    (∃ adj, Separable s N K = some adj ∧
      (∀ row ∈ adj, ∃ c ∈ chunks (List.range N) (2 * K),
        row.length = 1 + min K (c.length - 1)) ∧
      ((∀ c ∈ chunks (List.range N) (2 * K), K + 1 ≤ c.length) →
        ∀ row ∈ adj, row.length = K + 1)) := by
  refine ⟨?_, ?_, ?_, ?_⟩
  · intro row hrow
    obtain ⟨i, _, rfl⟩ := List.mem_map.mp hrow
    simp
  · intro h
    obtain ⟨adj, ha, _, hP⟩ := Unrestricted_some s hs N K h
    exact ⟨adj, ha, fun row hr => (hP row hr).1⟩
  · intro h
    obtain ⟨adj, ha, _, hP⟩ := SAT_some s hs N K h
    exact ⟨adj, ha, fun row hr => (hP row hr).1⟩
  · obtain ⟨adj, ha, hP⟩ := Separable_some s hs N K
    refine ⟨adj, ha, hP, ?_⟩
    intro hbig row hr
    obtain ⟨c, hc, hlen⟩ := hP row hr
    have hcl := hbig c hc
    rw [hlen]
    omega

/-- Witness for `C2_amended` at the prefix sampler with `N = 5`, `K = 1`. -/
theorem C2_amended_witness :
    (∀ row ∈ NearestNeighbor 5 1, row.length = 1 + 1) ∧
    (1 + 1 ≤ 5 → ∃ adj, Unrestricted takeSampler 5 1 = some adj ∧
      ∀ row ∈ adj, row.length = 1 + 1) ∧
    (1 + 1 ≤ 5 → ∃ adj, SAT_like takeSampler 5 1 = some adj ∧
      ∀ row ∈ adj, row.length = 1 + 1) ∧
    (∃ adj, Separable takeSampler 5 1 = some adj ∧
      (∀ row ∈ adj, ∃ c ∈ chunks (List.range 5) (2 * 1),
        row.length = 1 + min 1 (c.length - 1)) ∧
      ((∀ c ∈ chunks (List.range 5) (2 * 1), 1 + 1 ≤ c.length) →
        ∀ row ∈ adj, row.length = 1 + 1)) :=
  C2_amended takeSampler takeSampler_spec 5 1

/-- Claim C3 (counterexample). The claim says each ValueTable row `r` has
`2 ^ (length of Adjacency row r)` cells, row by row.  The code instead sizes all
table rows from the first adjacency row: at `Separable`, `N = 6`, `K = 2` the
blocks are `[0..4]` and `[5]`, adjacency row 5 is `[5]` (length 1), yet the
generated table row 5 holds `2 ^ 3 = 8` cells, not `2 ^ 1 = 2`. -/
theorem C3_counterexample :
    (Separable takeSampler 6 2).map (fun adj =>
      (((Create_Instance_table adj (fun n => n)).getD 5 []).length,
        (adj.getD 5 []).length)) = some (8, 1) ∧ (8 : Nat) ≠ 2 ^ 1 := by
  decide

/-- Claim C3 (amended). The ValueTable always has exactly as many rows as the
Adjacency, and every ValueTable row has `2 ^ (length of the FIRST adjacency
row)` cells; the row-by-row relation of the original claim holds whenever all
adjacency rows share the first row's width (as they do for every linkage model
except `Separable` on block sizes below `K + 1`). -/
theorem C3_amended {α : Type} (adjacency : List (List Nat)) (cell : Nat → α) :
    (Create_Instance_table adjacency cell).length = adjacency.length ∧
    (∀ row ∈ Create_Instance_table adjacency cell,
      row.length = 2 ^ (adjacency.headD []).length) ∧
    ((∀ r ∈ adjacency, r.length = (adjacency.headD []).length) →
      ∀ i, i < adjacency.length →
        ((Create_Instance_table adjacency cell).getD i []).length =
          2 ^ ((adjacency.getD i []).length)) := by
  refine ⟨by simp [Create_Instance_table], ?_, ?_⟩
  · intro row hrow
    rw [Create_Instance_table] at hrow
    obtain ⟨r, _, rfl⟩ := List.mem_map.mp hrow
    simp
  · intro huni i hi
    rw [table_getD adjacency cell i hi]
    have hmem : adjacency.getD i [] ∈ adjacency := by
      rw [List.getD_eq_getElem _ _ hi]
      exact List.getElem_mem _
    rw [huni (adjacency.getD i []) hmem]
    simp

/-- Witness for `C3_amended` on a concrete uniform-width adjacency. -/
theorem C3_amended_witness :
    ((Create_Instance_table [[0, 1], [1, 0]] (fun n => n)).getD 0 []).length =
      2 ^ (([[0, 1], [1, 0]] : List (List Nat)).getD 0 []).length :=
  (C3_amended [[0, 1], [1, 0]] (fun n => n)).2.2 (by decide) 0 (by decide)

/-- Claim C4 (counterexample). The claim says `SAT_like(N, K)` returns
`ceil(4.27 * N)` rows; at `N = 10` that would be 43, but `int(4.27 * 10)`
truncates to 42: the model produces exactly 42 rows. -/
theorem C4_counterexample :
    (SAT_like takeSampler 10 1).map List.length = some 42 ∧
      (42 : Int) ≠ Int.ceil ((427 : ℚ) * 10 / 100) := by
  refine ⟨by decide, ?_⟩
  have hc : Int.ceil ((427 : ℚ) * 10 / 100) = 43 := by
    rw [Int.ceil_eq_iff]
    norm_num
  rw [hc]
  decide

set_option maxRecDepth 40000 in
/-- Claim C4 (amended). For `K + 1 ≤ N`, `SAT_like(N, K)` returns exactly
`int(4.27 * N)` rows — the truncation of the IEEE binary64 product, never the
ceiling — each consisting of `K + 1` pairwise distinct indices drawn from
`{0 .. N-1}`.  On the whole orchestrator range `N ≤ 300` that count is the
exact truncation `⌊427 * N / 100⌋`, except at the multiples of 100
(`N = 100, 200, 300`) where the float product rounds one ulp below the exact
integer `4.27 * N` and one fewer row is produced. -/
theorem C4_amended (s : List Nat → Nat → Option (List Nat)) (hs : SamplerSpec s)
    (N K : Nat) (h : K + 1 ≤ N) :
    (∃ rows, SAT_like s N K = some rows ∧ rows.length = sat_row_count N ∧
      ∀ row ∈ rows, row.length = K + 1 ∧ row.Nodup ∧ ∀ x ∈ row, x < N) ∧
    (∀ M, M ≤ 300 → M % 100 ≠ 0 → sat_row_count M = 427 * M / 100) ∧
    (∀ M, M ≤ 300 → M % 100 = 0 → 1 ≤ M → sat_row_count M = 427 * M / 100 - 1) := by
  refine ⟨SAT_some s hs N K h, ?_, ?_⟩
  · decide
  · decide

/-- Witness for `C4_amended` at the prefix sampler with `N = 10`, `K = 1`. -/
theorem C4_amended_witness :
    (∃ rows, SAT_like takeSampler 10 1 = some rows ∧ rows.length = sat_row_count 10 ∧
      ∀ row ∈ rows, row.length = 1 + 1 ∧ row.Nodup ∧ ∀ x ∈ row, x < 10) ∧
    (∀ M, M ≤ 300 → M % 100 ≠ 0 → sat_row_count M = 427 * M / 100) ∧
    (∀ M, M ≤ 300 → M % 100 = 0 → 1 ≤ M → sat_row_count M = 427 * M / 100 - 1) :=
  C4_amended takeSampler takeSampler_spec 10 1 (by decide)

/-- Claim C5. For `Mesh` with `N = 9`, `K = 1` (axis width 3), exactly two rows
have first entry 8, and the set of their second entries is exactly `{2, 6}`. -/
theorem C5_mesh_vertex8 :
    ((Mesh 9 1).filter (fun row => row.headD 0 == 8)).length = 2 ∧
    (((Mesh 9 1).filter (fun row => row.headD 0 == 8)).map
      (fun row => row.getD 1 0)).toFinset = ({2, 6} : Finset Nat) := by
  decide

/-- Claim C6. For every `N` and `K` (so in particular for `N ≥ 2`, `K ≥ 1`),
`Mesh(N, K)` returns exactly `N * (K + 1)` rows and every row has exactly
2 entries, independent of `K`. -/
theorem C6_mesh_shape (N K : Nat) :
    (Mesh N K).length = N * (K + 1) ∧ ∀ row ∈ Mesh N K, row.length = 2 := by
  constructor
  · rw [Mesh, length_flatMap_const _ _ (K + 1) (fun i _ => by simp)]
    simp
  · intro row hrow
    rw [Mesh] at hrow
    obtain ⟨i, _, hr⟩ := List.mem_flatMap.mp hrow
    obtain ⟨d, _, rfl⟩ := List.mem_map.mp hr
    exact mesh_edge_length _ _ _ _ _

/-- Claim C7. The second header field written by `Create_Instance` is
`2 * N * N // eval_const`, which equals the exact rational floor
`⌊2 * N ^ 2 / eval_const⌋` for every `N ≥ 1` and `eval_const ∈ {1, 4, 16}`;
in particular at `N = 100`, `eval_const = 4` it is 5000. -/
theorem C7_header (N ec : Nat) (adjacency : List (List Nat)) (hN : 1 ≤ N)
    (hec : ec = 1 ∨ ec = 4 ∨ ec = 16) :
    ((Create_Instance_header N ec adjacency).2.1 : Int) =
      Int.floor ((2 * (N : ℚ) ^ 2) / (ec : ℚ)) ∧
    (Create_Instance_header 100 4 adjacency).2.1 = 5000 := by
  have hec0 : 0 < ec := by rcases hec with h | h | h <;> omega
  constructor
  · show ((2 * N * N / ec : Nat) : Int) = _
    rw [natDiv_cast_floor _ _ hec0]
    congr 1
    push_cast
    ring
  · show 2 * 100 * 100 / 4 = 5000
    rfl

/-- Witness for `C7_header` at `N = 100`, `eval_const = 4`. -/
theorem C7_header_witness :
    ((Create_Instance_header 100 4 []).2.1 : Int) =
      Int.floor ((2 * (100 : ℚ) ^ 2) / ((4 : Nat) : ℚ)) ∧
    (Create_Instance_header 100 4 []).2.1 = 5000 :=
  C7_header 100 4 [] (by decide) (Or.inr (Or.inl rfl))

/-- Claim C8. With the `TwoValues` cardinality strategy the whole generated
ValueTable holds at most 2 distinct cell values, and with `PowKValues` at most
`2 ^ rowWidth` distinct cell values, because the option pool is drawn once per
instance and shared by every cell-fill call. -/
theorem C8_cardinality (adjacency : List (List Nat)) (rngStream : Nat → ℚ)
    (idxA idxB : Nat → Nat) :
    ((Create_Instance_table adjacency
      (cardinality_cell (TwoValues_options rngStream) 0 idxA)).flatten.toFinset.card ≤ 2) ∧
    ((Create_Instance_table adjacency
      (cardinality_cell (PowKValues_options rngStream ((adjacency.headD []).length)) 0
        idxB)).flatten.toFinset.card ≤ 2 ^ (adjacency.headD []).length) := by
  constructor
  · have h := table_card_le adjacency (TwoValues_options rngStream) 0 idxA
      (by simp [TwoValues_options])
    simpa [TwoValues_options] using h
  · have hlen : (PowKValues_options rngStream ((adjacency.headD []).length)).length =
        2 ^ (adjacency.headD []).length := by
      simp [PowKValues_options]
    have h := table_card_le adjacency
      (PowKValues_options rngStream ((adjacency.headD []).length)) 0 idxB
      (by rw [hlen]; exact pow_pos (by norm_num) _)
    rw [hlen] at h
    exact h

/-- Claim C9. For every `N ≥ 1` and `K ≥ N`, `Unrestricted` and `SAT_like`
fail fast: `random.sample` cannot draw `K` (resp. `K + 1`) distinct indices
from `N - 1` (resp. `N`) candidates, so the model returns `none` and never a
malformed adjacency. -/
theorem C9_failfast (s : List Nat → Nat → Option (List Nat)) (hs : SamplerSpec s)
    (N K : Nat) (hN : 1 ≤ N) (hK : N ≤ K) :
    Unrestricted s N K = none ∧ SAT_like s N K = none :=
  ⟨Unrestricted_none s hs N K hN hK, SAT_none s hs N K hN hK⟩

/-- Witness for `C9_failfast` at the prefix sampler with `N = 1`, `K = 1`. -/
theorem C9_failfast_witness :
    Unrestricted takeSampler 1 1 = none ∧ SAT_like takeSampler 1 1 = none :=
  C9_failfast takeSampler takeSampler_spec 1 1 (by decide) (by decide)

/-- Claim C10. Every class produced by `Create_Class` has `N ∈ [50, 300]`,
`K ∈ [1, 5]` and `eval_const ∈ {1, 4, 16}`, hence `K + 1 ≤ 6 ≤ N`, so the
without-replacement sampling preconditions of `Unrestricted` and `SAT_like`
always hold for orchestrator-produced classes. -/
theorem C10_class_ranges (r1 r2 r3 r4 r5 r6 r7 : Nat) :
    50 ≤ (Create_Class r1 r2 r3 r4 r5 r6 r7).N ∧
    (Create_Class r1 r2 r3 r4 r5 r6 r7).N ≤ 300 ∧
    1 ≤ (Create_Class r1 r2 r3 r4 r5 r6 r7).K ∧
    (Create_Class r1 r2 r3 r4 r5 r6 r7).K ≤ 5 ∧
    ((Create_Class r1 r2 r3 r4 r5 r6 r7).eval_const = 1 ∨
      (Create_Class r1 r2 r3 r4 r5 r6 r7).eval_const = 4 ∨
      (Create_Class r1 r2 r3 r4 r5 r6 r7).eval_const = 16) ∧
    (Create_Class r1 r2 r3 r4 r5 r6 r7).K + 1 ≤ 6 ∧
    6 ≤ (Create_Class r1 r2 r3 r4 r5 r6 r7).N ∧
    (Create_Class r1 r2 r3 r4 r5 r6 r7).K + 1 ≤ (Create_Class r1 r2 r3 r4 r5 r6 r7).N := by
  dsimp only [Create_Class, randint, rand_choice]
  have h6 : r6 % 3 = 0 ∨ r6 % 3 = 1 ∨ r6 % 3 = 2 := by omega
  refine ⟨by omega, by omega, by omega, by omega, ?_, by omega, by omega, by omega⟩
  rcases h6 with h | h | h <;> simp [h]
